import Mathlib

/-!
Shallow embedding of the tideland/go-bcd decimal core (src/bcd.go) and proofs
about it.  Digits are little-endian lists of decimal digits, as in the Go
struct; machine `uint8`/`uint16`/`uint64` digit arithmetic is modelled with
`Nat` (every Go operation involved stays far below the respective overflow
bound for digit values 0..9, so the model is exact), and `int64` arithmetic in
`ToInt64` is modelled with `Int` plus an explicit two's-complement wrap.
-/

set_option maxRecDepth 20000

namespace GoBCD

/-- Rounding modes (bcd.go `RoundingMode` constants). -/
inductive RoundingMode where
  | RoundDown
  | RoundUp
  | RoundHalfUp
  | RoundHalfDown
  | RoundHalfEven
  | RoundCeiling
  | RoundFloor
  deriving DecidableEq

open RoundingMode

/-- The BCD value: little-endian decimal digits, scale, sign (bcd.go `BCD`). -/
structure BCD where
  digits : List Nat
  scale : Nat
  negative : Bool
  deriving DecidableEq

/-- Value of a little-endian digit list as a natural number. -/
def toZ : List Nat → Nat
  | [] => 0
  | d :: ds => d + 10 * toZ ds

/-- bcd.go `isZero`: all digits are zero. -/
def isZero (ds : List Nat) : Bool := ds.all fun d => d == 0

/-- One step of the Go pattern `for len(x) > 1 && x[len(x)-1] == 0 { x = x[:len(x)-1] }`,
expressed on the reversed (big-endian) list: drop leading zeros, keeping at
least one digit.  The same loop shape also appears (on the little-endian end)
in `Round` when the target scale is zero. -/
def dropLeadZeros : List Nat → List Nat
  | [] => []
  | [d] => [d]
  | d :: ds => if d = 0 then dropLeadZeros ds else d :: ds

/-- Strip most-significant zero digits of a little-endian digit list, keeping
at least one digit (the trailing-position strip loop of bcd.go). -/
def stripMSB (ds : List Nat) : List Nat := (dropLeadZeros ds.reverse).reverse

/-- bcd.go `Zero()`: the canonical zero. -/
def Zero : BCD := ⟨[0], 0, false⟩

/-! ## Parser (bcd.go `parseString`) -/

/-- The whitespace set of Go `strings.TrimSpace` restricted to Latin-1
(`unicode.IsSpace`); all inputs considered in this development are ASCII. -/
def isSpaceGo (c : Char) : Bool :=
  c == ' ' || c == '\t' || c == '\n' || c == '\r' ||
  c == Char.ofNat 11 || c == Char.ofNat 12 || c == Char.ofNat 133 || c == Char.ofNat 160

def trimSpace (s : List Char) : List Char :=
  ((s.dropWhile isSpaceGo).reverse.dropWhile isSpaceGo).reverse

def isDigitChar (c : Char) : Bool := '0' ≤ c && c ≤ '9'

/-- Go `strings.Split(s, ".")`. -/
def splitDot : List Char → List (List Char)
  | [] => [[]]
  | c :: cs =>
      let r := splitDot cs
      if c = '.' then [] :: r
      else
        match r with
        | [] => [[c]]
        | p :: ps => (c :: p) :: ps

def charToDigit (c : Char) : Nat := c.toNat - 48

/-- bcd.go `parseString`.  The scientific-notation branch of the source
resolves through a binary `float64` (`fromFloat64`); that path is outside this
embedding (no claim exercises it) and is mapped to `none`. -/
def parseString (input : List Char) : Option BCD :=
  let s := trimSpace input
  if s = [] then some Zero
  else if s.any fun c => c == 'e' || c == 'E' then none
  else
    let signAndRest : Bool × List Char :=
      match s with
      | '-' :: rest => (true, rest)
      | '+' :: rest => (false, rest)
      | _ => (false, s)
    let parts := splitDot signAndRest.2
    if parts.length > 2 then none
    else
      let intRaw := (parts.headD []).dropWhile fun c => c == '0'
      let intPart := if intRaw = [] then ['0'] else intRaw
      let decPart := ((parts.getD 1 []).reverse.dropWhile fun c => c == '0').reverse
      let scale := decPart.length
      let allDigits := intPart ++ decPart
      if ¬ (allDigits.all isDigitChar) then none
      else if allDigits = ['0'] then some Zero
      else
        let digits := stripMSB (allDigits.reverse.map charToDigit)
        some ⟨digits, scale, signAndRest.1 && !isZero digits⟩

/-! ## Renderer (bcd.go `String`) -/

def digitChar (d : Nat) : Char := Char.ofNat (d + 48)

/-- bcd.go `String`, producing the character list of the rendering. -/
def toStr (b : BCD) : List Char :=
  if b.digits.length = 0 ∨ (b.digits.length = 1 ∧ b.digits.headD 0 = 0) then ['0']
  else
    let sign := if b.negative then ['-'] else []
    if b.digits.length ≤ b.scale then
      sign ++ ['0', '.'] ++ List.replicate (b.scale - b.digits.length) '0' ++
        (b.digits.reverse.map digitChar)
    else
      let intPart := (b.digits.drop b.scale).reverse.map digitChar
      let fracPart := (b.digits.take b.scale).reverse.map digitChar
      sign ++ intPart ++ (if 0 < b.scale then '.' :: fracPart else [])

/-! ## Aligner / comparator (bcd.go `alignDecimals`, `compareMagnitudes`, `Cmp`) -/

/-- bcd.go `alignDecimals`: zero-pad the least-significant end of the operand
with the smaller scale. -/
def alignDecimals (a b : BCD) : BCD × BCD :=
  if a.scale = b.scale then (a, b)
  else if a.scale < b.scale then
    (⟨List.replicate (b.scale - a.scale) 0 ++ a.digits, b.scale, a.negative⟩, b)
  else
    (a, ⟨List.replicate (a.scale - b.scale) 0 ++ b.digits, a.scale, b.negative⟩)

/-- The digit-wise most-significant-first comparison loop of
`compareMagnitudes`, on reversed (big-endian) lists of equal length. -/
def lexCmp : List Nat → List Nat → Int
  | x :: xs, y :: ys =>
      if x > y then 1
      else if x < y then -1
      else lexCmp xs ys
  | _, _ => 0

/-- bcd.go `compareMagnitudes`. -/
def compareMagnitudes (a b : BCD) : Int :=
  let p := alignDecimals a b
  if p.1.digits.length > p.2.digits.length then 1
  else if p.1.digits.length < p.2.digits.length then -1
  else lexCmp p.1.digits.reverse p.2.digits.reverse

/-- bcd.go `Cmp`. -/
def Cmp (a b : BCD) : Int :=
  if a.negative && !b.negative then -1
  else if !a.negative && b.negative then 1
  else
    let result := compareMagnitudes a b
    if a.negative then -result else result

/-! ## Addition / subtraction (bcd.go `addMagnitudes`, `subtractMagnitudes`, `Add`) -/

/-- The carry loop of `addMagnitudes`: the Go loop fills an array of length
`max + 1` (running while `i < maxLen || carry > 0`), leaving a final digit
that is the leftover carry (or `0`); this recursion produces exactly those
`max + 1` digits. -/
def addCarry : List Nat → List Nat → Nat → List Nat
  | [], [], c => [c]
  | x :: xs, [], c => (x + c) % 10 :: addCarry xs [] ((x + c) / 10)
  | [], y :: ys, c => (y + c) % 10 :: addCarry [] ys ((y + c) / 10)
  | x :: xs, y :: ys, c => (x + y + c) % 10 :: addCarry xs ys ((x + y + c) / 10)

/-- bcd.go `addMagnitudes` (same-scale operands; fresh value is not negative). -/
def addMagnitudes (a b : BCD) : BCD :=
  ⟨stripMSB (addCarry a.digits b.digits 0), a.scale, false⟩

/-- The borrow loop of `subtractMagnitudes` (Go computes the step in `int8`;
for digit values 0..9 that arithmetic never overflows, so the `Nat` branch
below is exact). -/
def subBorrow : List Nat → List Nat → Nat → List Nat
  | [], _, _ => []
  | x :: xs, ys, borrow =>
      let s := ys.headD 0 + borrow
      if x < s then (x + 10 - s) :: subBorrow xs (ys.drop 1) 1
      else (x - s) :: subBorrow xs (ys.drop 1) 0

/-- bcd.go `subtractMagnitudes` (assumes the first magnitude is the larger). -/
def subtractMagnitudes (a b : BCD) : BCD :=
  ⟨stripMSB (subBorrow a.digits b.digits 0), a.scale, false⟩

/-- bcd.go `Add`. -/
def Add (a b : BCD) : BCD :=
  if a.negative = b.negative then
    let p := alignDecimals a b
    let sum := addMagnitudes p.1 p.2
    { sum with negative := a.negative }
  else
    let cmp := compareMagnitudes a b
    if cmp = 0 then Zero
    else
      let p := alignDecimals a b
      if cmp > 0 then { subtractMagnitudes p.1 p.2 with negative := a.negative }
      else { subtractMagnitudes p.2 p.1 with negative := b.negative }

/-! ## Multiplication (bcd.go `Mul`) -/

/-- One row of the schoolbook loop in `Mul`: walk the second factor's digits
against the suffix of the result array, propagating the row carry; when the
digits run out, a leftover carry is written into the next result position
(which the algorithm has not yet touched, hence it is an overwrite in Go). -/
def mulRow (d : Nat) : List Nat → List Nat → Nat → List Nat
  | [], rs, c => if c = 0 then rs else c :: rs.drop 1
  | _ :: _, [], _ => []
  | bd :: bs, r :: rs, c =>
      let p := d * bd + r + c
      p % 10 :: mulRow d bs rs (p / 10)

/-- The outer row loop of `Mul`: row `i` starts at offset `i` of the result
array, i.e. each recursive call fixes one more least-significant digit. -/
def mulLoop (bs : List Nat) : List Nat → List Nat → List Nat
  | [], rs => rs
  | d :: ds, rs =>
      match mulRow d bs rs 0 with
      | [] => []
      | r :: rest => r :: mulLoop bs ds rest

/-- bcd.go `Mul`. -/
def Mul (a b : BCD) : BCD :=
  if isZero a.digits || isZero b.digits then Zero
  else
    ⟨stripMSB (mulLoop b.digits a.digits
        (List.replicate (a.digits.length + b.digits.length) 0)),
      a.scale + b.scale, a.negative != b.negative⟩

/-! ## Division (bcd.go `divideWithRemainder` and helpers) -/

/-- The accumulation loop converting digits to a `uint64` in `longDivision`
(for at most 15 digits the value stays below `10^15 < 2^63`, so `Nat` models
it exactly). -/
def digitsToNatAux : List Nat → Nat → Nat → Nat
  | [], acc, _ => acc
  | d :: ds, acc, m => digitsToNatAux ds (acc + d * m) (m * 10)

def digitsToNat (ds : List Nat) : Nat := digitsToNatAux ds 0 1

/-- The `for v > 0 { append v%10; v /= 10 }` digit-extraction loop, written
with structural fuel so that the kernel can evaluate it; the loop runs at most
once per decimal digit, so fuel `n` is always enough. -/
def natDigitsGo : Nat → Nat → List Nat
  | _, 0 => []
  | n, fuel + 1 => if n = 0 then [] else n % 10 :: natDigitsGo (n / 10) fuel

def natDigitsPos (n : Nat) : List Nat := natDigitsGo n n

/-- Digits of a value as built in `longDivision` (`[0]` when the value is 0). -/
def natToDigits (n : Nat) : List Nat := if n = 0 then [0] else natDigitsPos n

/-- The most-significant-first per-digit loop of `divideBySmallInt`, on the
reversed (big-endian) digit list, threading the running remainder (Go uses
`uint16`; values stay below 100). -/
def divSmallAux (d : Nat) : List Nat → Nat → List Nat × Nat
  | [], r => ([], r)
  | x :: xs, r =>
      let cur := r * 10 + x
      let res := divSmallAux d xs (cur % d)
      (cur / d :: res.1, res.2)

/-- bcd.go `divideBySmallInt`.  The source panics on a zero divisor; every
caller modelled here excludes that, so the zero case returns a dummy. -/
def divideBySmallInt (a : BCD) (d : Nat) : BCD × BCD :=
  if d = 0 then (Zero, Zero)
  else
    let res := divSmallAux d a.digits.reverse 0
    (⟨stripMSB res.1.reverse, 0, false⟩, ⟨[res.2], 0, false⟩)

/-- The digit loop of `multiplyByDigit`. -/
def multiplyByDigitCarry (d : Nat) : List Nat → Nat → List Nat
  | [], c => if 0 < c then [c] else []
  | x :: xs, c => (x * d + c) % 10 :: multiplyByDigitCarry d xs ((x * d + c) / 10)

/-- bcd.go `multiplyByDigit`. -/
def multiplyByDigit (b : BCD) (d : Nat) : BCD :=
  if d = 0 then Zero
  else ⟨multiplyByDigitCarry d b.digits 0, b.scale, false⟩

/-- The `for multiplier < 9` search in `longDivision`'s fallback: grow the
candidate digit while the next product still fits below the remainder. -/
def findMultAux (divisor rem : BCD) : Nat → Nat → Nat
  | 0, m => m
  | k + 1, m =>
      if compareMagnitudes (multiplyByDigit divisor (m + 1)) rem > 0 then m
      else findMultAux divisor rem k (m + 1)

/-- The repeated-subtraction loop of `longDivision`'s fallback.  The Go loop
runs while `remainder >= divisor`; for a nonzero divisor it performs at most
`dividend` iterations, which is the fuel the caller passes (for the
multi-digit all-zero divisor the Go loop would not terminate; that situation
is unreachable from the exported operations, which reject zero divisors). -/
def longDivLoop (divisor : BCD) : Nat → BCD → List Nat → List Nat × BCD
  | 0, rem, acc => (acc, rem)
  | fuel + 1, rem, acc =>
      if compareMagnitudes rem divisor ≥ 0 then
        let m := findMultAux divisor rem 8 1
        let rem2 := subtractMagnitudes rem (multiplyByDigit divisor m)
        longDivLoop divisor fuel rem2 (m :: acc)
      else (acc, rem)

/-- bcd.go `longDivision`. -/
def longDivision (dividend divisor : BCD) : BCD × BCD :=
  if compareMagnitudes dividend divisor < 0 then (Zero, dividend)
  else if divisor.digits.length ≤ 15 ∧ dividend.digits.length ≤ 15 then
    let dv := digitsToNat divisor.digits
    let nv := digitsToNat dividend.digits
    (⟨natToDigits (nv / dv), 0, false⟩, ⟨natToDigits (nv % dv), 0, false⟩)
  else
    let res := longDivLoop divisor (digitsToNat dividend.digits + 1) dividend []
    let qd := res.1.reverse
    (⟨if qd = [] then [0] else qd, 0, false⟩, res.2)

/-- bcd.go `divideIntegers`.  The source panics on the single-digit zero
divisor; unreachable from the modelled callers, mapped to a dummy. -/
def divideIntegers (a b : BCD) : BCD × BCD :=
  if b.digits.length = 1 ∧ b.digits.headD 0 = 0 then (Zero, Zero)
  else if b.digits.length = 1 then divideBySmallInt a (b.digits.headD 0)
  else longDivision a b

/-- bcd.go `divideWithRemainder`. -/
def divideWithRemainder (a b : BCD) (targetScale : Nat) : BCD × BCD :=
  let dividend : BCD := ⟨List.replicate (targetScale + b.scale) 0 ++ a.digits, 0, a.negative⟩
  let divisor : BCD := ⟨b.digits, 0, b.negative⟩
  let res := divideIntegers dividend divisor
  ({ res.1 with scale := targetScale + a.scale }, res.2)

/-! ## Rounding engine (bcd.go `shouldRoundUp`, `Round`) -/

/-- bcd.go `shouldRoundUp`. -/
def shouldRoundUp (digit nextDigit : Nat) (isEven : Bool) (mode : RoundingMode)
    (negative : Bool) : Bool :=
  match mode with
  | RoundDown => false
  | RoundUp => if 0 < digit ∨ 0 < nextDigit then true else false
  | RoundHalfUp => if 5 ≤ digit then true else false
  | RoundHalfDown => if 5 < digit ∨ (digit = 5 ∧ 0 < nextDigit) then true else false
  | RoundHalfEven =>
      if 5 < digit ∨ (digit = 5 ∧ 0 < nextDigit) then true
      else if digit = 5 ∧ nextDigit = 0 then !isEven
      else false
  | RoundCeiling =>
      if negative then false
      else if 0 < digit ∨ 0 < nextDigit then true else false
  | RoundFloor =>
      if !negative then false
      else if 0 < digit ∨ 0 < nextDigit then true else false

/-- The add-one carry loop in `Round` (appends a final carry digit). -/
def incCarry : List Nat → Nat → List Nat
  | ds, 0 => ds
  | [], c + 1 => [c + 1]
  | d :: ds, c + 1 => (d + c + 1) % 10 :: incCarry ds ((d + c + 1) / 10)

/-- bcd.go `Round`.  The source clamps a negative `places` to `0`; with a
`Nat` scale the clamp is the identity. -/
def Round (b : BCD) (places : Nat) (mode : RoundingMode) : BCD :=
  if b.scale ≤ places then b
  else
    let removeCount := b.scale - places
    if b.digits.length ≤ removeCount then
      if isZero b.digits then Zero
      else if shouldRoundUp (b.digits.getLastD 0) 0 false mode b.negative then
        if places = 0 then ⟨[1], 0, b.negative⟩
        else ⟨List.replicate (places - 1) 0 ++ [1], places, b.negative⟩
      else Zero
    else
      let newDigits := b.digits.drop removeCount
      let roundDigit := b.digits.getD (removeCount - 1) 0
      let nextDigit := if 2 ≤ removeCount then b.digits.getD (removeCount - 2) 0 else 0
      let isEven : Bool := newDigits.headD 0 % 2 == 0
      let rounded :=
        if shouldRoundUp roundDigit nextDigit isEven mode b.negative then incCarry newDigits 1
        else newDigits
      let final := if places = 0 then dropLeadZeros rounded else rounded
      ⟨final, places, b.negative⟩

/-! ## Division-family operations (bcd.go `Div`, `DivInt`, `Mod`) -/

/-- bcd.go `Div` (`none` is `ErrDivisionByZero`). -/
def Div (a b : BCD) (scale : Nat) (mode : RoundingMode) : Option BCD :=
  if isZero b.digits then none
  else if isZero a.digits then some Zero
  else
    let q := (divideWithRemainder a b (scale + 1)).1
    some (Round { q with negative := a.negative != b.negative } scale mode)

/-- bcd.go `DivInt`. -/
def DivInt (a b : BCD) : Option BCD :=
  if isZero b.digits then none
  else if isZero a.digits then some Zero
  else
    let q0 := (divideWithRemainder a b 0).1
    let q : BCD := { q0 with negative := a.negative != b.negative }
    if 0 < q.scale then
      if q.digits.length ≤ q.scale then some Zero
      else some ⟨q.digits.drop q.scale, 0, q.negative⟩
    else some q

/-- bcd.go `Mod`. -/
def Mod (a b : BCD) : Option BCD :=
  if isZero b.digits then none
  else if isZero a.digits then some Zero
  else
    let r := (divideWithRemainder a b 0).2
    some { r with negative := a.negative }

/-! ## Conversions and normalization (bcd.go `ToInt64`, `Normalize`) -/

/-- Two's-complement wrap of Go `int64` arithmetic. -/
def wrap64 (x : Int) : Int := (x + 2 ^ 63) % 2 ^ 64 - 2 ^ 63

/-- The digit-accumulation loop of `ToInt64`, with Go's pre-multiply guard
(`multiplier > math.MaxInt64/10`) and post-add sign-flip overflow check. -/
def toInt64Loop : List Nat → Int → Int → Option Int
  | [], result, _ => some result
  | d :: ds, result, multiplier =>
      let digitValue := wrap64 ((d : Int) * multiplier)
      if multiplier > 9223372036854775807 / 10 then none
      else
        let newResult := wrap64 (result + digitValue)
        if (0 < result ∧ newResult < result) ∨ (result < 0 ∧ result < newResult) then none
        else toInt64Loop ds newResult (wrap64 (multiplier * 10))

/-- bcd.go `ToInt64` (`none` is `ErrOverflow`). -/
def ToInt64 (b : BCD) : Option Int :=
  let rounded := Round b 0 RoundDown
  if isZero rounded.digits then some 0
  else
    match toInt64Loop rounded.digits 0 1 with
    | none => none
    | some result =>
        if b.negative then
          let r := wrap64 (-result)
          if 0 < r then none else some r
        else some result

/-- The trailing-zero count loop of `Normalize`
(`for i < scale && i < len(digits) && digits[i] == 0`). -/
def countTZ : List Nat → Nat → Nat
  | _, 0 => 0
  | [], _ => 0
  | d :: ds, s + 1 => if d = 0 then countTZ ds s + 1 else 0

/-- bcd.go `Normalize`. -/
def Normalize (b : BCD) : BCD :=
  if b.scale = 0 ∨ isZero b.digits then b
  else
    let tz := countTZ b.digits b.scale
    if tz = 0 then b
    else
      let ds := b.digits.drop tz
      let sc := b.scale - tz
      if sc = 0 ∨ ds = [] then ⟨if ds = [] then [0] else ds, 0, b.negative⟩
      else ⟨ds, sc, b.negative⟩

/-! ## Well-formedness of library-constructed values

Every value the library constructs has a nonempty digit list of decimal
digits with no redundant most-significant zero, and the canonical zero is the
only zero (scale 0).  These are the representation invariants stated in the
specification's data model. -/

def DigitsOk (ds : List Nat) : Prop := ∀ d ∈ ds, d < 10

instance (ds : List Nat) : Decidable (DigitsOk ds) := List.decidableBAll _ ds

/-- Well-formed BCD value (representation invariants of library values). -/
def WF (b : BCD) : Prop :=
  b.digits ≠ [] ∧ DigitsOk b.digits ∧ stripMSB b.digits = b.digits ∧
    (isZero b.digits = true → b.scale = 0)

instance (b : BCD) : Decidable (WF b) := by unfold WF; infer_instance

/-- Semantic value of a BCD as a rational. -/
def val (b : BCD) : ℚ := (cond b.negative (-1) 1) * (toZ b.digits : ℚ) / 10 ^ b.scale

/-! ## Digit-list lemmas -/

theorem toZ_cons (d : Nat) (ds : List Nat) : toZ (d :: ds) = d + 10 * toZ ds := rfl

theorem toZ_append (ds es : List Nat) :
    toZ (ds ++ es) = toZ ds + 10 ^ ds.length * toZ es := by
  induction ds with
  | nil => simp [toZ]
  | cons d ds ih => simp [toZ, ih, pow_succ]; ring

theorem toZ_replicate_zero (k : Nat) : toZ (List.replicate k 0) = 0 := by
  induction k with
  | zero => rfl
  | succ k ih => simpa [List.replicate_succ, toZ] using ih

theorem toZ_pad (k : Nat) (ds : List Nat) :
    toZ (List.replicate k 0 ++ ds) = 10 ^ k * toZ ds := by
  rw [toZ_append, toZ_replicate_zero, List.length_replicate, zero_add]

theorem toZ_concat (ds : List Nat) (d : Nat) :
    toZ (ds ++ [d]) = toZ ds + d * 10 ^ ds.length := by
  rw [toZ_append]; simp [toZ]; ring

theorem toZ_lt (ds : List Nat) (h : DigitsOk ds) : toZ ds < 10 ^ ds.length := by
  induction ds with
  | nil => simp [toZ]
  | cons d ds ih =>
      have hd : d < 10 := h d (by simp)
      have ht : toZ ds < 10 ^ ds.length := ih fun x hx => h x (by simp [hx])
      rw [toZ_cons, List.length_cons, pow_succ]
      generalize 10 ^ ds.length = X at ht ⊢
      omega

theorem isZero_iff (ds : List Nat) : isZero ds = true ↔ toZ ds = 0 := by
  induction ds with
  | nil => simp [isZero, toZ]
  | cons d ds ih =>
      have hstep : isZero (d :: ds) = (d == 0 && isZero ds) := rfl
      rw [hstep, Bool.and_eq_true, beq_iff_eq, ih, toZ_cons]
      omega

theorem isZero_false_iff (ds : List Nat) : isZero ds = false ↔ 0 < toZ ds := by
  constructor
  · intro h
    by_contra hc
    have h0 : toZ ds = 0 := by omega
    rw [(isZero_iff ds).mpr h0] at h
    simp at h
  · intro h
    cases hb : isZero ds with
    | false => rfl
    | true =>
        have := (isZero_iff ds).mp hb
        omega

/-! ## Lemmas about the most-significant-zero strip -/

theorem dropLeadZeros_cons_zero (e : Nat) (t : List Nat) :
    dropLeadZeros (0 :: e :: t) = dropLeadZeros (e :: t) := by
  simp [dropLeadZeros]

theorem dropLeadZeros_cons_ne (d e : Nat) (t : List Nat) (hd : d ≠ 0) :
    dropLeadZeros (d :: e :: t) = d :: e :: t := by
  simp [dropLeadZeros, hd]

theorem dropLeadZeros_length_le (xs : List Nat) :
    (dropLeadZeros xs).length ≤ xs.length := by
  induction xs with
  | nil => simp [dropLeadZeros]
  | cons d xs ih =>
      cases xs with
      | nil => simp [dropLeadZeros]
      | cons e t =>
          by_cases hd : d = 0
          · subst hd
            rw [dropLeadZeros_cons_zero]
            exact le_trans ih (by simp)
          · rw [dropLeadZeros_cons_ne _ _ _ hd]

theorem dropLeadZeros_ne_nil (xs : List Nat) (h : xs ≠ []) : dropLeadZeros xs ≠ [] := by
  induction xs with
  | nil => exact absurd rfl h
  | cons d xs ih =>
      cases xs with
      | nil => simp [dropLeadZeros]
      | cons e t =>
          by_cases hd : d = 0
          · subst hd
            rw [dropLeadZeros_cons_zero]
            exact ih (by simp)
          · rw [dropLeadZeros_cons_ne _ _ _ hd]
            simp

theorem dropLeadZeros_sublist (xs : List Nat) : ∀ x ∈ dropLeadZeros xs, x ∈ xs := by
  induction xs with
  | nil => simp [dropLeadZeros]
  | cons d xs ih =>
      cases xs with
      | nil => simp [dropLeadZeros]
      | cons e t =>
          by_cases hd : d = 0
          · subst hd
            rw [dropLeadZeros_cons_zero]
            exact fun x hx => List.mem_cons_of_mem _ (ih x hx)
          · rw [dropLeadZeros_cons_ne _ _ _ hd]
            exact fun x hx => hx

theorem toZ_reverse_dropLeadZeros (xs : List Nat) :
    toZ (dropLeadZeros xs).reverse = toZ xs.reverse := by
  induction xs with
  | nil => rfl
  | cons d xs ih =>
      cases xs with
      | nil => rfl
      | cons e t =>
          by_cases hd : d = 0
          · subst hd
            rw [dropLeadZeros_cons_zero, ih]
            have h1 : (0 :: e :: t).reverse = (e :: t).reverse ++ [0] := by simp
            rw [h1, toZ_concat]
            simp
          · rw [dropLeadZeros_cons_ne _ _ _ hd]

theorem dropLeadZeros_fixed_iff (xs : List Nat) :
    dropLeadZeros xs = xs ↔ xs.length ≤ 1 ∨ xs.headD 0 ≠ 0 := by
  cases xs with
  | nil => simp [dropLeadZeros]
  | cons d xs =>
      cases xs with
      | nil => simp [dropLeadZeros]
      | cons e t =>
          by_cases hd : d = 0
          · subst hd
            rw [dropLeadZeros_cons_zero]
            simp only [List.headD_cons]
            constructor
            · intro h
              have hlen := dropLeadZeros_length_le (e :: t)
              have hlen2 : (dropLeadZeros (e :: t)).length = (0 :: e :: t).length := by
                rw [h]
              simp only [List.length_cons] at hlen hlen2
              omega
            · intro h
              rcases h with h | h
              · simp [List.length_cons] at h
              · exact absurd rfl h
          · rw [dropLeadZeros_cons_ne _ _ _ hd]
            simp [hd]

theorem stripMSB_toZ (ds : List Nat) : toZ (stripMSB ds) = toZ ds := by
  unfold stripMSB
  rw [toZ_reverse_dropLeadZeros, List.reverse_reverse]

theorem stripMSB_ne_nil (ds : List Nat) (h : ds ≠ []) : stripMSB ds ≠ [] := by
  unfold stripMSB
  intro hc
  have : dropLeadZeros ds.reverse = [] := by
    have := congrArg List.reverse hc
    simpa using this
  exact dropLeadZeros_ne_nil ds.reverse (by simpa using h) this

theorem stripMSB_digitsOk (ds : List Nat) (h : DigitsOk ds) : DigitsOk (stripMSB ds) := by
  intro x hx
  unfold stripMSB at hx
  rw [List.mem_reverse] at hx
  exact h x (by simpa using dropLeadZeros_sublist ds.reverse x hx)

theorem getLastD_of_ne_nil (xs : List Nat) (h : xs ≠ []) (a b : Nat) :
    xs.getLastD a = xs.getLastD b := by
  cases xs with
  | nil => exact absurd rfl h
  | cons d t =>
      rw [List.getLastD_cons, List.getLastD_cons]

theorem headD_reverse (xs : List Nat) : xs.reverse.headD 0 = xs.getLastD 0 := by
  induction xs with
  | nil => rfl
  | cons d t ih =>
      cases t with
      | nil => simp
      | cons e u =>
          rw [List.reverse_cons, List.getLastD_cons]
          rw [List.headD_eq_head?, List.head?_append]
          rw [List.headD_eq_head?] at ih
          have hne : (e :: u).reverse.head?.isSome := by
            simp [List.head?_isSome]
          rw [Option.or_of_isSome hne]
          rw [ih]
          exact (getLastD_of_ne_nil (e :: u) (by simp) 0 d).symm.trans
            (getLastD_of_ne_nil (e :: u) (by simp) d d)

theorem stripMSB_fixed_iff (ds : List Nat) :
    stripMSB ds = ds ↔ ds.length ≤ 1 ∨ ds.getLastD 0 ≠ 0 := by
  unfold stripMSB
  constructor
  · intro h
    have h' : dropLeadZeros ds.reverse = ds.reverse := by
      have := congrArg List.reverse h
      simpa using this
    rcases (dropLeadZeros_fixed_iff ds.reverse).mp h' with h1 | h1
    · exact Or.inl (by simpa using h1)
    · exact Or.inr (by rwa [headD_reverse] at h1)
  · intro h
    have h' : dropLeadZeros ds.reverse = ds.reverse := by
      refine (dropLeadZeros_fixed_iff ds.reverse).mpr ?_
      rcases h with h | h
      · exact Or.inl (by simpa using h)
      · exact Or.inr (by rwa [headD_reverse])
    rw [h']
    exact List.reverse_reverse ds

/-! ## Uniqueness of the canonical digit representation -/

theorem natDigitsGo_congr :
    ∀ fuel1 fuel2 n, n ≤ fuel1 → n ≤ fuel2 → natDigitsGo n fuel1 = natDigitsGo n fuel2 := by
  intro fuel1
  induction fuel1 with
  | zero =>
      intro fuel2 n h1 _
      have hn : n = 0 := Nat.le_zero.mp h1
      subst hn
      cases fuel2 with
      | zero => rfl
      | succ f => simp [natDigitsGo]
  | succ f1 ih =>
      intro fuel2 n h1 h2
      by_cases hn : n = 0
      · subst hn
        cases fuel2 with
        | zero => simp [natDigitsGo]
        | succ f => simp [natDigitsGo]
      · have hpos : 0 < n := Nat.pos_of_ne_zero hn
        cases fuel2 with
        | zero => omega
        | succ f2 =>
            simp only [natDigitsGo, if_neg hn]
            have hdiv : n / 10 < n := Nat.div_lt_self hpos (by norm_num)
            rw [ih f2 (n / 10) (by omega) (by omega)]

theorem natDigitsPos_eq (n : Nat) (h : n ≠ 0) :
    natDigitsPos n = n % 10 :: natDigitsPos (n / 10) := by
  unfold natDigitsPos
  obtain ⟨m, rfl⟩ : ∃ m, n = m + 1 := ⟨n - 1, by omega⟩
  simp only [natDigitsGo, if_neg h]
  congr 1
  exact natDigitsGo_congr m ((m + 1) / 10) ((m + 1) / 10) (by omega) le_rfl

theorem toZ_pos_of_getLastD (ds : List Nat) (h : ds.getLastD 0 ≠ 0) : 0 < toZ ds := by
  rcases List.eq_nil_or_concat ds with rfl | ⟨init, l, rfl⟩
  · simp at h
  · rw [List.concat_eq_append, toZ_concat]
    have hl : (init.concat l).getLastD 0 = l := by simp
    rw [hl] at h
    have h1 : 0 < l := Nat.pos_of_ne_zero h
    have hp : 0 < 10 ^ init.length := pow_pos (by norm_num) _
    positivity

/-- The digit loop of `longDivision` inverts `toZ` on canonical
(most-significant-zero-stripped) digit lists. -/
theorem natToDigits_toZ (ds : List Nat) (hne : ds ≠ []) (hok : DigitsOk ds)
    (hs : stripMSB ds = ds) : natToDigits (toZ ds) = ds := by
  induction ds with
  | nil => exact absurd rfl hne
  | cons d tail ih =>
      cases tail with
      | nil =>
          have hd : d < 10 := hok d (by simp)
          by_cases h0 : d = 0
          · subst h0
            rfl
          · have htoz : toZ [d] = d := by simp [toZ]
            rw [htoz]
            unfold natToDigits
            rw [if_neg h0, natDigitsPos_eq d h0, Nat.mod_eq_of_lt hd,
              Nat.div_eq_of_lt hd]
            rfl
      | cons e t =>
          have hlast : (d :: e :: t).getLastD 0 ≠ 0 := by
            rcases (stripMSB_fixed_iff (d :: e :: t)).mp hs with h | h
            · simp at h
            · exact h
          have hlast' : (e :: t).getLastD 0 ≠ 0 := by
            rwa [List.getLastD_cons, getLastD_of_ne_nil (e :: t) (by simp) d 0] at hlast
          have htailstrip : stripMSB (e :: t) = e :: t :=
            (stripMSB_fixed_iff (e :: t)).mpr (Or.inr hlast')
          have htailok : DigitsOk (e :: t) := fun x hx => hok x (by simp [hx])
          have hT : 0 < toZ (e :: t) := toZ_pos_of_getLastD _ hlast'
          have hd : d < 10 := hok d (by simp)
          rw [toZ_cons]
          have hn0 : d + 10 * toZ (e :: t) ≠ 0 := by omega
          unfold natToDigits
          rw [if_neg hn0, natDigitsPos_eq _ hn0]
          have hmod : (d + 10 * toZ (e :: t)) % 10 = d := by
            omega
          have hdiv : (d + 10 * toZ (e :: t)) / 10 = toZ (e :: t) := by
            omega
          rw [hmod, hdiv]
          have := ih (by simp) htailok htailstrip
          unfold natToDigits at this
          rw [if_neg (by omega)] at this
          rw [this]

/-- Two canonical bounded digit lists with the same value are equal. -/
theorem toZ_inj (ds es : List Nat) (hd : ds ≠ []) (he : es ≠ [])
    (hdok : DigitsOk ds) (heok : DigitsOk es)
    (hds : stripMSB ds = ds) (hes : stripMSB es = es)
    (h : toZ ds = toZ es) : ds = es := by
  have h1 := natToDigits_toZ ds hd hdok hds
  have h2 := natToDigits_toZ es he heok hes
  rw [← h1, ← h2, h]

/-! ## Alignment and comparison lemmas -/

theorem alignDecimals_eq (a b : BCD) :
    alignDecimals a b =
      (⟨List.replicate (max a.scale b.scale - a.scale) 0 ++ a.digits, max a.scale b.scale,
          a.negative⟩,
        ⟨List.replicate (max a.scale b.scale - b.scale) 0 ++ b.digits, max a.scale b.scale,
          b.negative⟩) := by
  obtain ⟨ad, as1, an⟩ := a
  obtain ⟨bd, bs1, bn⟩ := b
  unfold alignDecimals
  simp only
  rcases Nat.lt_trichotomy as1 bs1 with h | h | h
  · rw [if_neg (by omega), if_pos h]
    have h1 : max as1 bs1 = bs1 := by omega
    simp [h1, Nat.sub_self]
  · subst h
    rw [if_pos rfl]
    simp [Nat.max_self, Nat.sub_self]
  · rw [if_neg (by omega), if_neg (by omega)]
    have h1 : max as1 bs1 = as1 := by omega
    simp [h1, Nat.sub_self]

theorem alignDecimals_swap (a b : BCD) :
    alignDecimals b a = ((alignDecimals a b).2, (alignDecimals a b).1) := by
  rw [alignDecimals_eq, alignDecimals_eq]
  simp [Nat.max_comm]

theorem lexCmp_cons (x y : Nat) (xs ys : List Nat) :
    lexCmp (x :: xs) (y :: ys) =
      if x > y then 1 else if x < y then -1 else lexCmp xs ys := rfl

theorem lexCmp_self (xs : List Nat) : lexCmp xs xs = 0 := by
  induction xs with
  | nil => rfl
  | cons x xs ih => rw [lexCmp_cons, if_neg (lt_irrefl x), if_neg (lt_irrefl x)]; exact ih

theorem lexCmp_eq_zero_iff :
    ∀ xs ys : List Nat, xs.length = ys.length → (lexCmp xs ys = 0 ↔ xs = ys) := by
  intro xs
  induction xs with
  | nil =>
      intro ys h
      cases ys with
      | nil => simp [lexCmp]
      | cons y ys => simp at h
  | cons x xs ih =>
      intro ys h
      cases ys with
      | nil => simp at h
      | cons y ys =>
          simp only [List.length_cons, Nat.add_right_cancel_iff] at h
          rw [lexCmp_cons]
          rcases Nat.lt_trichotomy x y with hlt | heq | hgt
          · rw [if_neg (by omega), if_pos hlt]
            constructor
            · intro hc; simp at hc
            · intro hc
              have := (List.cons.injEq _ _ _ _).mp hc
              omega
          · subst heq
            rw [if_neg (by omega), if_neg (by omega)]
            rw [ih ys h]
            simp
          · rw [if_pos hgt]
            constructor
            · intro hc; simp at hc
            · intro hc
              have := (List.cons.injEq _ _ _ _).mp hc
              omega

theorem digitsOk_pad (k : Nat) (ds : List Nat) (h : DigitsOk ds) :
    DigitsOk (List.replicate k 0 ++ ds) := by
  intro x hx
  rcases List.mem_append.mp hx with hx | hx
  · have := List.eq_of_mem_replicate hx
    omega
  · exact h x hx

theorem getLastD_append (xs ys : List Nat) (h : ys ≠ []) :
    (xs ++ ys).getLastD 0 = ys.getLastD 0 := by
  rw [List.getLastD_eq_getLast?, List.getLastD_eq_getLast?, List.getLast?_append_of_ne_nil _ h]

theorem getLastD_mem (ds : List Nat) (h : ds ≠ []) : ds.getLastD 0 ∈ ds := by
  rcases List.eq_nil_or_concat ds with rfl | ⟨init, l, rfl⟩
  · exact absurd rfl h
  · simp

/-- A canonical all-zero digit list is the single `[0]`. -/
theorem stripped_zero_eq (ds : List Nat) (hne : ds ≠ []) (hs : stripMSB ds = ds)
    (hz : isZero ds = true) : ds = [0] := by
  rcases (stripMSB_fixed_iff ds).mp hs with h | h
  · cases ds with
    | nil => exact absurd rfl hne
    | cons d t =>
        cases t with
        | nil =>
            have : d = 0 := by
              have := (isZero_iff _).mp hz
              rw [toZ_cons] at this
              omega
            rw [this]
        | cons e u => simp at h
  · exfalso
    have hmem := getLastD_mem ds hne
    have : toZ ds = 0 := (isZero_iff _).mp hz
    have hall : ∀ x ∈ ds, x = 0 := by
      intro x hx
      have := isZero_iff ds
      simp only [isZero, List.all_eq_true, beq_iff_eq] at hz ⊢
      exact hz x hx
    exact h (hall _ hmem)

/-- A canonical nonzero digit list has a nonzero most-significant digit. -/
theorem getLastD_ne_of_stripped (ds : List Nat) (hne : ds ≠ []) (hs : stripMSB ds = ds)
    (hz : isZero ds = false) : ds.getLastD 0 ≠ 0 := by
  rcases (stripMSB_fixed_iff ds).mp hs with h | h
  · cases ds with
    | nil => exact absurd rfl hne
    | cons d t =>
        cases t with
        | nil =>
            have hd : d ≠ 0 := by
              have := (isZero_false_iff _).mp hz
              rw [toZ_cons] at this
              intro hc
              simp [hc, toZ] at this
            simpa using hd
        | cons e u => simp at h
  · exact h

theorem compareMagnitudes_eq_zero_iff (a b : BCD) (ha : WF a) (hb : WF b) :
    compareMagnitudes a b = 0 ↔
      toZ a.digits * 10 ^ b.scale = toZ b.digits * 10 ^ a.scale := by
  obtain ⟨hane, haok, hastrip, hazero⟩ := ha
  obtain ⟨hbne, hbok, hbstrip, hbzero⟩ := hb
  have hm1 : a.scale ≤ max a.scale b.scale := Nat.le_max_left _ _
  have hm2 : b.scale ≤ max a.scale b.scale := Nat.le_max_right _ _
  set m := max a.scale b.scale with hm
  set d1 := List.replicate (m - a.scale) 0 ++ a.digits with hd1
  set d2 := List.replicate (m - b.scale) 0 ++ b.digits with hd2
  have hcm : compareMagnitudes a b =
      if d2.length < d1.length then 1
      else if d1.length < d2.length then -1
      else lexCmp d1.reverse d2.reverse := by
    unfold compareMagnitudes
    rw [alignDecimals_eq]
  have hv1 : toZ d1 = 10 ^ (m - a.scale) * toZ a.digits := toZ_pad _ _
  have hv2 : toZ d2 = 10 ^ (m - b.scale) * toZ b.digits := toZ_pad _ _
  have e1 : 10 ^ (m - a.scale) * 10 ^ a.scale = 10 ^ m := by
    rw [← pow_add]
    congr 1
    omega
  have e2 : 10 ^ (m - b.scale) * 10 ^ b.scale = 10 ^ m := by
    rw [← pow_add]
    congr 1
    omega
  have hcross : toZ d1 = toZ d2 ↔
      toZ a.digits * 10 ^ b.scale = toZ b.digits * 10 ^ a.scale := by
    rw [hv1, hv2]
    constructor
    · intro h
      have key : 10 ^ m * (toZ a.digits * 10 ^ b.scale) =
          10 ^ m * (toZ b.digits * 10 ^ a.scale) := by
        calc 10 ^ m * (toZ a.digits * 10 ^ b.scale)
            = (10 ^ (m - a.scale) * 10 ^ a.scale) * (toZ a.digits * 10 ^ b.scale) := by
              rw [e1]
          _ = (10 ^ (m - a.scale) * toZ a.digits) * (10 ^ a.scale * 10 ^ b.scale) := by
              ring
          _ = (10 ^ (m - b.scale) * toZ b.digits) * (10 ^ a.scale * 10 ^ b.scale) := by
              rw [h]
          _ = (10 ^ (m - b.scale) * 10 ^ b.scale) * (toZ b.digits * 10 ^ a.scale) := by
              ring
          _ = 10 ^ m * (toZ b.digits * 10 ^ a.scale) := by rw [e2]
      exact Nat.eq_of_mul_eq_mul_left (pow_pos (by norm_num) m) key
    · intro h
      have key : (10 ^ (m - a.scale) * toZ a.digits) * (10 ^ a.scale * 10 ^ b.scale) =
          (10 ^ (m - b.scale) * toZ b.digits) * (10 ^ a.scale * 10 ^ b.scale) := by
        calc (10 ^ (m - a.scale) * toZ a.digits) * (10 ^ a.scale * 10 ^ b.scale)
            = (10 ^ (m - a.scale) * 10 ^ a.scale) * (toZ a.digits * 10 ^ b.scale) := by
              ring
          _ = 10 ^ m * (toZ b.digits * 10 ^ a.scale) := by rw [e1, h]
          _ = (10 ^ (m - b.scale) * 10 ^ b.scale) * (toZ b.digits * 10 ^ a.scale) := by
              rw [e2]
          _ = (10 ^ (m - b.scale) * toZ b.digits) * (10 ^ a.scale * 10 ^ b.scale) := by
              ring
      exact Nat.eq_of_mul_eq_mul_right
        (Nat.mul_pos (pow_pos (by norm_num) _) (pow_pos (by norm_num) _)) key
  rw [← hcross]
  constructor
  · intro h
    rw [hcm] at h
    by_cases hlen : d1.length = d2.length
    · rw [if_neg (by omega), if_neg (by omega)] at h
      have hrev : d1.reverse = d2.reverse :=
        (lexCmp_eq_zero_iff _ _ (by simp [hlen])).mp h
      have : d1 = d2 := by
        have := congrArg List.reverse hrev
        simpa using this
      rw [this]
    · rcases Nat.lt_or_ge d1.length d2.length with h2 | h2
      · rw [if_neg (by omega), if_pos h2] at h
        simp at h
      · rw [if_pos (by omega)] at h
        simp at h
  · intro h
    have hd1ne : d1 ≠ [] := by
      rw [hd1]
      intro hc
      rcases List.append_eq_nil.mp hc with ⟨_, hc2⟩
      exact hane hc2
    have hd2ne : d2 ≠ [] := by
      rw [hd2]
      intro hc
      rcases List.append_eq_nil.mp hc with ⟨_, hc2⟩
      exact hbne hc2
    have hd1ok : DigitsOk d1 := digitsOk_pad _ _ haok
    have hd2ok : DigitsOk d2 := digitsOk_pad _ _ hbok
    have heq : d1 = d2 := by
      cases hza : isZero a.digits with
      | true =>
          cases hzb : isZero b.digits with
          | true =>
              have hs0a : a.scale = 0 := hazero hza
              have hs0b : b.scale = 0 := hbzero hzb
              have hma : m = 0 := by omega
              have ha0 : a.digits = [0] := stripped_zero_eq _ hane hastrip hza
              have hb0 : b.digits = [0] := stripped_zero_eq _ hbne hbstrip hzb
              rw [hd1, hd2, ha0, hb0, hma]
              simp
          | false =>
              exfalso
              have hta : toZ a.digits = 0 := (isZero_iff _).mp hza
              have htb : 0 < toZ b.digits := (isZero_false_iff _).mp hzb
              rw [hv1, hv2, hta] at h
              have : 0 < 10 ^ (m - b.scale) * toZ b.digits :=
                Nat.mul_pos (pow_pos (by norm_num) _) htb
              omega
      | false =>
          cases hzb : isZero b.digits with
          | true =>
              exfalso
              have htb : toZ b.digits = 0 := (isZero_iff _).mp hzb
              have hta : 0 < toZ a.digits := (isZero_false_iff _).mp hza
              rw [hv1, hv2, htb] at h
              have : 0 < 10 ^ (m - a.scale) * toZ a.digits :=
                Nat.mul_pos (pow_pos (by norm_num) _) hta
              omega
          | false =>
              have hla : a.digits.getLastD 0 ≠ 0 :=
                getLastD_ne_of_stripped _ hane hastrip hza
              have hlb : b.digits.getLastD 0 ≠ 0 :=
                getLastD_ne_of_stripped _ hbne hbstrip hzb
              have hs1 : stripMSB d1 = d1 := by
                refine (stripMSB_fixed_iff d1).mpr (Or.inr ?_)
                rw [hd1, getLastD_append _ _ hane]
                exact hla
              have hs2 : stripMSB d2 = d2 := by
                refine (stripMSB_fixed_iff d2).mpr (Or.inr ?_)
                rw [hd2, getLastD_append _ _ hbne]
                exact hlb
              exact toZ_inj d1 d2 hd1ne hd2ne hd1ok hd2ok hs1 hs2 h
    rw [hcm, heq]
    rw [if_neg (by omega), if_neg (by omega)]
    exact lexCmp_self _

/-! ## Commutativity infrastructure for Add -/

theorem addCarry_nil_comm : ∀ (ys : List Nat) (c : Nat), addCarry [] ys c = addCarry ys [] c := by
  intro ys
  induction ys with
  | nil => intro c; rfl
  | cons y ys ih =>
      intro c
      simp only [addCarry]
      rw [ih]

theorem addCarry_comm : ∀ (xs ys : List Nat) (c : Nat), addCarry xs ys c = addCarry ys xs c := by
  intro xs
  induction xs with
  | nil => exact addCarry_nil_comm
  | cons x xs ih =>
      intro ys c
      cases ys with
      | nil => exact (addCarry_nil_comm (x :: xs) c).symm
      | cons y ys =>
          simp only [addCarry]
          have hxy : y + x + c = x + y + c := by omega
          rw [hxy, ih]

theorem lexCmp_antisym : ∀ xs ys : List Nat, lexCmp ys xs = -lexCmp xs ys := by
  intro xs
  induction xs with
  | nil =>
      intro ys
      cases ys with
      | nil => simp [lexCmp]
      | cons y ys => simp [lexCmp]
  | cons x xs ih =>
      intro ys
      cases ys with
      | nil => simp [lexCmp]
      | cons y ys =>
          rw [lexCmp_cons, lexCmp_cons]
          rcases Nat.lt_trichotomy x y with h | h | h
          · rw [if_pos h, if_neg (by omega : ¬x > y), if_pos h]
            norm_num
          · subst h
            rw [if_neg (by omega), if_neg (by omega), if_neg (by omega), if_neg (by omega)]
            exact ih ys
          · rw [if_neg (by omega : ¬y > x), if_pos h, if_pos h]

theorem compareMagnitudes_antisym (a b : BCD) :
    compareMagnitudes b a = -compareMagnitudes a b := by
  unfold compareMagnitudes
  rw [alignDecimals_swap]
  simp only
  rcases Nat.lt_trichotomy (alignDecimals a b).1.digits.length
      (alignDecimals a b).2.digits.length with h | h | h
  · rw [if_pos h, if_neg (by omega :
      ¬(alignDecimals a b).1.digits.length > (alignDecimals a b).2.digits.length), if_pos h]
    norm_num
  · rw [if_neg (by omega), if_neg (by omega), if_neg (by omega), if_neg (by omega)]
    exact lexCmp_antisym _ _
  · rw [if_neg (by omega :
      ¬(alignDecimals a b).2.digits.length > (alignDecimals a b).1.digits.length),
      if_pos h, if_pos h]

theorem alignDecimals_scale_eq (a b : BCD) :
    (alignDecimals a b).1.scale = (alignDecimals a b).2.scale := by
  rw [alignDecimals_eq]

theorem Add_comm_bcd (a b : BCD) : Add a b = Add b a := by
  have hcm : compareMagnitudes b a = -compareMagnitudes a b :=
    compareMagnitudes_antisym a b
  have hsw := alignDecimals_swap a b
  have hsc := alignDecimals_scale_eq a b
  unfold Add
  by_cases hsign : a.negative = b.negative
  · rw [if_pos hsign, if_pos hsign.symm, hsw]
    simp only [addMagnitudes]
    rw [addCarry_comm, hsc, hsign]
  · rw [if_neg hsign,
      if_neg (show ¬b.negative = a.negative from fun hc => hsign hc.symm)]
    simp only [hsw, hcm]
    rcases Int.lt_trichotomy (compareMagnitudes a b) 0 with h | h | h
    · rw [if_neg (show ¬compareMagnitudes a b = 0 by omega),
        if_neg (show ¬-compareMagnitudes a b = 0 by omega),
        if_neg (show ¬compareMagnitudes a b > 0 by omega),
        if_pos (show -compareMagnitudes a b > 0 by omega)]
    · rw [if_pos h, if_pos (show -compareMagnitudes a b = 0 by omega)]
    · rw [if_neg (show ¬compareMagnitudes a b = 0 by omega),
        if_neg (show ¬-compareMagnitudes a b = 0 by omega),
        if_pos (show compareMagnitudes a b > 0 by omega),
        if_neg (show ¬-compareMagnitudes a b > 0 by omega)]

/-! ## Commutativity infrastructure for Mul -/

theorem dropLeadZeros_idem (xs : List Nat) :
    dropLeadZeros (dropLeadZeros xs) = dropLeadZeros xs := by
  induction xs with
  | nil => rfl
  | cons d xs ih =>
      cases xs with
      | nil => rfl
      | cons e t =>
          by_cases hd : d = 0
          · subst hd
            rw [dropLeadZeros_cons_zero]
            exact ih
          · rw [dropLeadZeros_cons_ne _ _ _ hd, dropLeadZeros_cons_ne _ _ _ hd]

theorem stripMSB_idem (ds : List Nat) : stripMSB (stripMSB ds) = stripMSB ds := by
  unfold stripMSB
  rw [List.reverse_reverse, dropLeadZeros_idem]

theorem mulRow_spec (d : Nat) (hd : d < 10) :
    ∀ (bs rs : List Nat) (c : Nat), DigitsOk bs → DigitsOk rs → c < 10 →
      bs.length < rs.length → (∀ x ∈ rs.drop bs.length, x = 0) →
      toZ (mulRow d bs rs c) = d * toZ bs + toZ rs + c ∧
      (mulRow d bs rs c).length = rs.length ∧
      DigitsOk (mulRow d bs rs c) ∧
      (∀ x ∈ (mulRow d bs rs c).drop (bs.length + 1), x = 0) := by
  intro bs
  induction bs with
  | nil =>
      intro rs c hbok hrok hc hlen hzero
      by_cases hc0 : c = 0
      · subst hc0
        simp only [mulRow, if_pos rfl]
        refine ⟨by simp [toZ], rfl, hrok, ?_⟩
        intro x hx
        exact hzero x (by simpa using List.mem_of_mem_drop hx)
      · obtain ⟨r0, rtl, rfl⟩ : ∃ r0 rtl, rs = r0 :: rtl := by
          cases rs with
          | nil => simp at hlen
          | cons r0 rtl => exact ⟨r0, rtl, rfl⟩
        have hr0 : r0 = 0 := hzero r0 (by simp)
        simp only [mulRow, if_neg hc0, List.drop_succ_cons, List.drop_zero]
        refine ⟨?_, by simp, ?_, ?_⟩
        · rw [toZ_cons, toZ_cons, hr0]
          simp [toZ]
          omega
        · intro x hx
          rcases List.mem_cons.mp hx with rfl | hx
          · exact hc
          · exact hrok x (by simp [hx])
        · intro x hx
          exact hzero x (by simp [List.mem_of_mem_drop hx])
  | cons b0 bs ih =>
      intro rs c hbok hrok hc hlen hzero
      obtain ⟨r0, rtl, rfl⟩ : ∃ r0 rtl, rs = r0 :: rtl := by
        cases rs with
        | nil => simp at hlen
        | cons r0 rtl => exact ⟨r0, rtl, rfl⟩
      have hb0 : b0 < 10 := hbok b0 (by simp)
      have hr0 : r0 < 10 := hrok r0 (by simp)
      have hdb : d * b0 ≤ 81 := by
        calc d * b0 ≤ 9 * 9 := Nat.mul_le_mul (by omega) (by omega)
          _ = 81 := rfl
      have hcar : (d * b0 + r0 + c) / 10 < 10 := by omega
      have hztl : ∀ x ∈ rtl.drop bs.length, x = 0 := by
        intro x hx
        exact hzero x (by simpa [List.drop_succ_cons] using hx)
      obtain ⟨hval, hlen2, hok2, hz2⟩ := ih rtl ((d * b0 + r0 + c) / 10)
        (fun x hx => hbok x (by simp [hx])) (fun x hx => hrok x (by simp [hx])) hcar
        (by simpa using hlen) hztl
      simp only [mulRow]
      refine ⟨?_, by simpa using hlen2, ?_, ?_⟩
      · rw [toZ_cons, hval, toZ_cons, toZ_cons]
        have expand : d * (b0 + 10 * toZ bs) = d * b0 + 10 * (d * toZ bs) := by ring
        rw [expand]
        set A := d * b0
        set B := d * toZ bs
        omega
      · intro x hx
        rcases List.mem_cons.mp hx with rfl | hx
        · exact Nat.mod_lt _ (by norm_num)
        · exact hok2 x hx
      · intro x hx
        simp only [List.length_cons, List.drop_succ_cons] at hx
        exact hz2 x hx

theorem mulLoop_spec (bs : List Nat) (hbok : DigitsOk bs) :
    ∀ (ds rs : List Nat), DigitsOk ds → DigitsOk rs →
      rs.length = ds.length + bs.length →
      (∀ x ∈ rs.drop bs.length, x = 0) →
      toZ (mulLoop bs ds rs) = toZ ds * toZ bs + toZ rs ∧
      (mulLoop bs ds rs).length = rs.length ∧
      DigitsOk (mulLoop bs ds rs) := by
  intro ds
  induction ds with
  | nil =>
      intro rs _ hrok hlen hz
      refine ⟨by simp [mulLoop, toZ], rfl, hrok⟩
  | cons d ds ih =>
      intro rs hdok hrok hlen hz
      have hd : d < 10 := hdok d (by simp)
      have hlt : bs.length < rs.length := by
        rw [hlen, List.length_cons]
        omega
      obtain ⟨hval, hlen2, hok2, hz2⟩ :=
        mulRow_spec d hd bs rs 0 hbok hrok (by omega) hlt hz
      obtain ⟨r0, rest, hr⟩ : ∃ r0 rest, mulRow d bs rs 0 = r0 :: rest := by
        cases hmr : mulRow d bs rs 0 with
        | nil =>
            rw [hmr] at hlen2
            simp at hlen2
            omega
        | cons r0 rest => exact ⟨r0, rest, rfl⟩
      have hstep : mulLoop bs (d :: ds) rs = r0 :: mulLoop bs ds rest := by
        simp only [mulLoop]
        rw [hr]
      have hrestlen : rest.length = ds.length + bs.length := by
        rw [hr] at hlen2
        simp only [List.length_cons] at hlen2
        rw [hlen, List.length_cons] at hlen2
        omega
      have hrestok : DigitsOk rest := fun x hx => hok2 x (by rw [hr]; simp [hx])
      have hrestz : ∀ x ∈ rest.drop bs.length, x = 0 := by
        intro x hx
        apply hz2
        rw [hr]
        simpa [List.drop_succ_cons] using hx
      obtain ⟨hv3, hl3, hok3⟩ := ih rest (fun x hx => hdok x (by simp [hx])) hrestok
        hrestlen hrestz
      refine ⟨?_, ?_, ?_⟩
      · rw [hstep, toZ_cons, hv3]
        have hrow : toZ (r0 :: rest) = d * toZ bs + toZ rs + 0 := by
          rw [← hr]
          exact hval
        rw [toZ_cons] at hrow
        rw [toZ_cons]
        have expand : (d + 10 * toZ ds) * toZ bs = d * toZ bs + 10 * (toZ ds * toZ bs) := by
          ring
        rw [expand]
        set A := d * toZ bs
        set B := toZ ds * toZ bs
        omega
      · rw [hstep, List.length_cons, hl3, hrestlen, hlen, List.length_cons]
        omega
      · intro x hx
        rw [hstep] at hx
        rcases List.mem_cons.mp hx with rfl | hx
        · exact hok2 x (by rw [hr]; simp)
        · exact hok3 x hx

/-- The digit list computed by `Mul` is the canonical representation of the
product of the operand values. -/
theorem mul_digits_repr (xd yd : List Nat) (hxok : DigitsOk xd) (hyok : DigitsOk yd)
    (hxne : xd ≠ []) :
    stripMSB (mulLoop yd xd (List.replicate (xd.length + yd.length) 0)) =
      natToDigits (toZ xd * toZ yd) := by
  set rs := List.replicate (xd.length + yd.length) 0 with hrs
  have hrok : DigitsOk rs := by
    intro x hx
    have := List.eq_of_mem_replicate hx
    omega
  have hrlen : rs.length = xd.length + yd.length := by simp [hrs]
  have hz : ∀ x ∈ rs.drop yd.length, x = 0 := by
    intro x hx
    exact List.eq_of_mem_replicate (List.mem_of_mem_drop hx)
  obtain ⟨hv, hlen, hok⟩ := mulLoop_spec yd hyok xd rs hxok hrok hrlen hz
  set X := mulLoop yd xd rs with hX
  have htoz : toZ X = toZ xd * toZ yd := by
    rw [hv, hrs, toZ_replicate_zero, Nat.add_zero]
  have hXne : X ≠ [] := by
    intro hc
    have h0 : rs.length = 0 := by rw [← hlen, hc]; rfl
    rw [hrlen] at h0
    have h1 : xd.length = 0 := by omega
    exact hxne (List.length_eq_zero.mp h1)
  have h1 := natToDigits_toZ (stripMSB X) (stripMSB_ne_nil X hXne)
    (stripMSB_digitsOk X hok) (stripMSB_idem X)
  rw [stripMSB_toZ, htoz] at h1
  exact h1.symm

theorem bne_comm_bool (x y : Bool) : (x != y) = (y != x) := by
  cases x <;> cases y <;> rfl

theorem Mul_comm_bcd (a b : BCD) (ha : WF a) (hb : WF b) : Mul a b = Mul b a := by
  obtain ⟨hane, haok, _, _⟩ := ha
  obtain ⟨hbne, hbok, _, _⟩ := hb
  unfold Mul
  by_cases hz : (isZero a.digits || isZero b.digits) = true
  · rw [if_pos hz, if_pos (by rwa [Bool.or_comm] at hz)]
  · rw [if_neg hz, if_neg (by rwa [Bool.or_comm] at hz)]
    have h1 := mul_digits_repr a.digits b.digits haok hbok hane
    have h2 := mul_digits_repr b.digits a.digits hbok haok hbne
    congr 1
    · rw [h1, h2, Nat.mul_comm]
    · exact Nat.add_comm _ _
    · exact bne_comm_bool _ _

/-! ## Claim theorems on concrete inputs -/

/-- C1: `Div` does not return the correctly rounded true quotient: dividing 51
by 1000 at scale 1 under ties-toward-zero yields canonical zero, although the
true quotient 0.051 is strictly nearer to 0.1 than to 0 (no tie), so the
correctly rounded result is 0.1.  The division computes a single guard digit
(`scale+1`) and the rounding step sees no remainder information, so the
boundary decision is wrong. -/
theorem div_c1_guard_digit_eval :
    parseString ['5', '1'] = some ⟨[1, 5], 0, false⟩ ∧
    parseString ['1', '0', '0', '0'] = some ⟨[0, 0, 0, 1], 0, false⟩ ∧
    Div ⟨[1, 5], 0, false⟩ ⟨[0, 0, 0, 1], 0, false⟩ 1 RoundingMode.RoundHalfDown =
      some Zero ∧
    val Zero = 0 ∧ |(51 : ℚ) / 1000 - 1 / 10| < |(51 : ℚ) / 1000 - 0| := by
  refine ⟨by decide, by decide, by decide, by norm_num [val, Zero, toZ], ?_⟩
  have h1 : |(51 : ℚ) / 1000 - 1 / 10| = 49 / 1000 := by
    rw [abs_of_nonpos (by norm_num)]; norm_num
  have h2 : |(51 : ℚ) / 1000 - 0| = 51 / 1000 := by
    rw [abs_of_nonneg (by norm_num)]; norm_num
  rw [h1, h2]; norm_num

/-- C2: the rounding decision ignores discarded digits beyond the one
immediately after the rounding digit: rounding 0.1002 to one decimal place in
away-from-zero mode keeps 0.1 (rounding digit 0, next digit 0; the final
discarded 2 is never consulted), although away-from-zero requires 0.2. -/
theorem round_c2_sticky_digit_eval :
    parseString ['0', '.', '1', '0', '0', '2'] = some ⟨[2, 0, 0, 1], 4, false⟩ ∧
    Round ⟨[2, 0, 0, 1], 4, false⟩ 1 RoundingMode.RoundUp = ⟨[1], 1, false⟩ ∧
    toStr ⟨[1], 1, false⟩ = ['0', '.', '1'] := by
  refine ⟨by decide, by decide, by decide⟩

/-- C3 counterexample: the scenario as stated is false — `Div(parse "100",
parse "5", 10, HalfUp)` renders as "20.0000000000" (the requested scale is
kept), not "20". -/
theorem div_c3_counterexample :
    parseString ['1', '0', '0'] = some ⟨[0, 0, 1], 0, false⟩ ∧
    parseString ['5'] = some ⟨[5], 0, false⟩ ∧
    (Div ⟨[0, 0, 1], 0, false⟩ ⟨[5], 0, false⟩ 10 RoundingMode.RoundHalfUp).map toStr =
      some ['2', '0', '.', '0', '0', '0', '0', '0', '0', '0', '0', '0', '0'] ∧
    ['2', '0', '.', '0', '0', '0', '0', '0', '0', '0', '0', '0', '0'] ≠ ['2', '0'] := by
  refine ⟨by decide, by decide, by decide, by decide⟩

/-- C3 amended: the scenario values are correct after `Normalize` (as the
repository's own tests do): `Div(100, 5, 10, HalfUp)` normalizes to "20", and
`Div(10, 4, 10, HalfUp)` rounded to scale 2 normalizes to "2.5" (its direct
rendering is "2.50"). -/
theorem div_c3_amended_eval :
    (Div ⟨[0, 0, 1], 0, false⟩ ⟨[5], 0, false⟩ 10 RoundingMode.RoundHalfUp).map
        (fun q => toStr (Normalize q)) = some ['2', '0'] ∧
    parseString ['1', '0'] = some ⟨[0, 1], 0, false⟩ ∧
    parseString ['4'] = some ⟨[4], 0, false⟩ ∧
    (Div ⟨[0, 1], 0, false⟩ ⟨[4], 0, false⟩ 10 RoundingMode.RoundHalfUp).map
        (fun q => toStr (Round q 2 RoundingMode.RoundHalfUp)) =
      some ['2', '.', '5', '0'] ∧
    (Div ⟨[0, 1], 0, false⟩ ⟨[4], 0, false⟩ 10 RoundingMode.RoundHalfUp).map
        (fun q => toStr (Normalize (Round q 2 RoundingMode.RoundHalfUp))) =
      some ['2', '.', '5'] := by
  refine ⟨by decide, by decide, by decide, by decide, by decide⟩

/-- C4: when every digit is discarded, `Round` feeds the decision table the
parity flag `false` ("odd") instead of the parity of the retained digit 0
(even): rounding 0.5 to scale 0 under ties-to-even returns 1, although the
tie between 0 and 1 must resolve to the even 0. -/
theorem round_c4_all_discarded_parity_eval :
    parseString ['0', '.', '5'] = some ⟨[5], 1, false⟩ ∧
    Round ⟨[5], 1, false⟩ 0 RoundingMode.RoundHalfEven = ⟨[1], 0, false⟩ ∧
    (⟨[1], 0, false⟩ : BCD) ≠ Zero := by
  refine ⟨by decide, by decide, by decide⟩

/-- C5: `Mod` violates the no-negative-zero invariant: `Mod(-10, 5)` copies
the dividend's sign onto a zero remainder, producing digits `[0]` with the
sign flag set. -/
theorem mod_c5_negative_zero_eval :
    parseString ['-', '1', '0'] = some ⟨[0, 1], 0, true⟩ ∧
    Mod ⟨[0, 1], 0, true⟩ ⟨[5], 0, false⟩ = some ⟨[0], 0, true⟩ ∧
    isZero [0] = true ∧ (⟨[0], 0, true⟩ : BCD).negative = true := by
  refine ⟨by decide, by decide, by decide, by decide⟩

/-- C6: `ToInt64` is not exact on values that fit: truncating 100.4 to scale 0
inside `ToInt64` strips the significant trailing zeros of 100 (the scale-0
branch of `Round` drops least-significant zero digits), so `ToInt64(100.4)`
returns 1 instead of 100; and the magnitude 9223372036854775807 = MaxInt64,
which fits exactly, is reported as overflow by the premature multiplier
guard. -/
theorem toInt64_c6_eval :
    parseString ['1', '0', '0', '.', '4'] = some ⟨[4, 0, 0, 1], 1, false⟩ ∧
    ToInt64 ⟨[4, 0, 0, 1], 1, false⟩ = some 1 ∧ (1 : Int) ≠ 100 ∧
    ToInt64 ⟨[7, 0, 8, 5, 7, 7, 4, 5, 8, 6, 3, 0, 2, 7, 3, 3, 2, 2, 9], 0, false⟩ = none ∧
    toZ [7, 0, 8, 5, 7, 7, 4, 5, 8, 6, 3, 0, 2, 7, 3, 3, 2, 2, 9] = 9223372036854775807 := by
  refine ⟨by decide, by decide, by decide, by decide, by decide⟩

/-- C7: `Mod` is not the remainder of truncating division for fractional
operands: with the package documentation's own example, `DivInt(10.50, 3.25)`
is 3 but `Mod(10.50, 3.25)` returns 100 — the remainder of the internally
scaled integer division, whose scale is never restored — while
`a - b * DivInt(a, b) = 10.50 - 3.25 * 3 = 0.75` (the documented result). -/
theorem mod_c7_scale_eval :
    parseString ['1', '0', '.', '5', '0'] = some ⟨[5, 0, 1], 1, false⟩ ∧
    parseString ['3', '.', '2', '5'] = some ⟨[5, 2, 3], 2, false⟩ ∧
    DivInt ⟨[5, 0, 1], 1, false⟩ ⟨[5, 2, 3], 2, false⟩ = some ⟨[3], 0, false⟩ ∧
    Mod ⟨[5, 0, 1], 1, false⟩ ⟨[5, 2, 3], 2, false⟩ = some ⟨[0, 0, 1], 0, false⟩ ∧
    val ⟨[0, 0, 1], 0, false⟩ = 100 ∧
    val ⟨[5, 0, 1], 1, false⟩ - val ⟨[5, 2, 3], 2, false⟩ * val ⟨[3], 0, false⟩ =
      3 / 4 ∧ (100 : ℚ) ≠ 3 / 4 := by
  refine ⟨by decide, by decide, by decide, by decide, ?_, ?_, by norm_num⟩
  · norm_num [val, toZ]
  · norm_num [val, toZ]

/-- C8: for well-formed values, `Cmp` returns -1 when only the first operand's
sign flag is set and 1 when only the second's is; with equal signs it is the
magnitude comparison, negated when both operands are negative, and it returns
0 exactly when the scale-aligned magnitudes are equal — i.e. when
`toZ a.digits * 10^b.scale = toZ b.digits * 10^a.scale` — so two
representations of the same semantic value compare equal. -/
theorem cmp_c8_spec (a b : BCD) (ha : WF a) (hb : WF b) :
    (a.negative = true → b.negative = false → Cmp a b = -1) ∧
    (a.negative = false → b.negative = true → Cmp a b = 1) ∧
    (a.negative = b.negative →
      Cmp a b = (if a.negative = true then -compareMagnitudes a b
                 else compareMagnitudes a b) ∧
      (Cmp a b = 0 ↔ toZ a.digits * 10 ^ b.scale = toZ b.digits * 10 ^ a.scale)) := by
  refine ⟨?_, ?_, ?_⟩
  · intro h1 h2
    simp [Cmp, h1, h2]
  · intro h1 h2
    simp [Cmp, h1, h2]
  · intro hsign
    have hC : Cmp a b = if a.negative = true then -compareMagnitudes a b
        else compareMagnitudes a b := by
      unfold Cmp
      cases hn : a.negative with
      | false =>
          rw [← hsign, hn]
          simp
      | true =>
          rw [← hsign, hn]
          simp
    refine ⟨hC, ?_⟩
    rw [hC]
    have hiff := compareMagnitudes_eq_zero_iff a b ha hb
    cases hn : a.negative with
    | false => simpa using hiff
    | true =>
        rw [if_pos rfl, neg_eq_zero]
        exact hiff

/-- C8 witness: both the spec's example strings parse to the same canonical
representation, which is well-formed, and `Cmp` yields 0 on it. -/
theorem cmp_c8_spec_witness :
    parseString ['1', '2', '3', '.', '4', '5', '0', '0'] =
      some ⟨[5, 4, 3, 2, 1], 2, false⟩ ∧
    parseString ['1', '2', '3', '.', '4', '5'] = some ⟨[5, 4, 3, 2, 1], 2, false⟩ ∧
    WF ⟨[5, 4, 3, 2, 1], 2, false⟩ ∧
    Cmp ⟨[5, 4, 3, 2, 1], 2, false⟩ ⟨[5, 4, 3, 2, 1], 2, false⟩ = 0 := by
  refine ⟨by decide, by decide, by decide, ?_⟩
  have h := cmp_c8_spec ⟨[5, 4, 3, 2, 1], 2, false⟩ ⟨[5, 4, 3, 2, 1], 2, false⟩
    (by decide) (by decide)
  exact ((h.2.2 rfl).2).mpr (by decide)

/-- C9: addition and multiplication are commutative: for all well-formed
values, `Add(a, b) = Add(b, a)` and `Mul(a, b) = Mul(b, a)` (equality of the
returned representations, hence of values). -/
theorem add_mul_c9_comm (a b : BCD) (ha : WF a) (hb : WF b) :
    Add a b = Add b a ∧ Mul a b = Mul b a :=
  ⟨Add_comm_bcd a b, Mul_comm_bcd a b ha hb⟩

/-- C9 witness: commutativity instantiated at 1.2 and -3.4. -/
theorem add_mul_c9_comm_witness :
    WF ⟨[2, 1], 1, false⟩ ∧ WF ⟨[4, 3], 1, true⟩ ∧
    Add ⟨[2, 1], 1, false⟩ ⟨[4, 3], 1, true⟩ =
      Add ⟨[4, 3], 1, true⟩ ⟨[2, 1], 1, false⟩ ∧
    Mul ⟨[2, 1], 1, false⟩ ⟨[4, 3], 1, true⟩ =
      Mul ⟨[4, 3], 1, true⟩ ⟨[2, 1], 1, false⟩ := by
  refine ⟨by decide, by decide, ?_, ?_⟩
  · exact (add_mul_c9_comm ⟨[2, 1], 1, false⟩ ⟨[4, 3], 1, true⟩ (by decide) (by decide)).1
  · exact (add_mul_c9_comm ⟨[2, 1], 1, false⟩ ⟨[4, 3], 1, true⟩ (by decide) (by decide)).2

/-- C10: the string constructor trims surrounding whitespace and accepts
digit-free inputs: "-", "+", "." and whitespace-padded variants all parse to
the canonical zero. -/
theorem parse_c10_no_digit_zero :
    parseString ['-'] = some Zero ∧
    parseString ['+'] = some Zero ∧
    parseString ['.'] = some Zero ∧
    parseString [' ', '-', ' '] = some Zero ∧
    parseString ['\t', '+'] = some Zero ∧
    parseString [' ', '.', ' '] = some Zero := by
  refine ⟨by decide, by decide, by decide, by decide, by decide, by decide⟩

end GoBCD
